import Mathlib

/-!
Shallow embedding of the go-mip modeling layer (package mip): terms,
quadratic terms, objective, constraint and model, with the lazy
canonicalization functions makeLinearTermsUnique and
makeQuadraticTermsUnique.

Numbers: the Go code works on float64 and the only float-specific behavior
it relies on is the NaN check at construction time. We embed float64 as an
explicit NaN marker plus an exact rational payload, so that coefficient
sums are exact as the specification states.

Variables: inside one model every variable has a unique index and the Go
maps keyed by Var (pointer identity) coincide with maps keyed by the index,
so a variable reference is embedded as its index. Go maps are embedded as
association lists; map iteration order is unspecified in Go, so all
canonical-set statements are phrased order-insensitively (via filter).
-/

namespace GoMip

/-- Embedding of float64: either NaN or an exact finite value. -/
inductive F64 where
  | nan : F64
  | fin : ℚ → F64
deriving DecidableEq

/-- Embeds math.IsNaN. -/
def F64.isNaN : F64 → Bool
  | .nan => true
  | .fin _ => false

/-- Embeds float64 addition on the values the model stores (NaN absorbs). -/
def F64.add : F64 → F64 → F64
  | .fin a, .fin b => .fin (a + b)
  | _, _ => .nan

/-- Embeds the Go comparison x == 0.0 (false on NaN). -/
def F64.eqZero : F64 → Bool
  | .nan => false
  | .fin q => decide (q = 0)

/-- Embeds the term struct: a coefficient and a variable reference
(the variable is embedded as its index). -/
structure Term where
  coefficient : F64
  varIdx : ℕ
deriving DecidableEq

/-- Embeds the quadraticTerm struct; newQuadraticTerm keeps
variable1 ≤ variable2. -/
structure quadraticTerm where
  variable1 : ℕ
  variable2 : ℕ
  coefficient : F64
deriving DecidableEq

/-- Embeds the Sense constants LessThanOrEqual, Equal, GreaterThanOrEqual. -/
inductive Sense where
  | LessThanOrEqual : Sense
  | Equal : Sense
  | GreaterThanOrEqual : Sense
deriving DecidableEq

/-- Association-list embedding of a Go map lookup value, ok := m[k]. -/
def mapLookup {κ α : Type} [DecidableEq κ] : List (κ × α) → κ → Option α
  | [], _ => none
  | p :: rest, k => if p.1 = k then some p.2 else mapLookup rest k

/-- Association-list embedding of Go delete(m, k). -/
def mapDelete {κ α : Type} [DecidableEq κ] (l : List (κ × α)) (k : κ) :
    List (κ × α) :=
  l.filter (fun p => !decide (p.1 = k))

/-- Association-list embedding of m[k] = a when k is already present. -/
def mapUpdate {κ α : Type} [DecidableEq κ] (l : List (κ × α)) (k : κ)
    (a : α) : List (κ × α) :=
  l.map (fun p => if p.1 = k then (k, a) else p)

/-- Association-list embedding of m[k] = a in general (insert or update),
used for the name side tables. -/
def mapSet {κ α : Type} [DecidableEq κ] (l : List (κ × α)) (k : κ)
    (a : α) : List (κ × α) :=
  if (mapLookup l k).isSome then mapUpdate l k a else l ++ [(k, a)]

/-- One step of the makeLinearTermsUnique loop body. -/
def linearUniqueStep (uniqueTerms : List (ℕ × Term)) (t : Term) :
    List (ℕ × Term) :=
  if t.coefficient.eqZero then uniqueTerms
  else
    match mapLookup uniqueTerms t.varIdx with
    | none => uniqueTerms ++ [(t.varIdx, t)]
    | some u =>
      let coefficient := u.coefficient.add t.coefficient
      if coefficient.eqZero then mapDelete uniqueTerms t.varIdx
      else mapUpdate uniqueTerms t.varIdx ⟨coefficient, t.varIdx⟩

/-- Embeds makeLinearTermsUnique: fold the raw terms into a map keyed by
the variable, skipping zero coefficients, deleting entries whose running
sum reaches exactly zero, then return the map values as a slice. -/
def makeLinearTermsUnique (terms : List Term) : List Term :=
  (terms.foldl linearUniqueStep []).map (fun p => p.2)

/-- Embeds newQuadraticTerm: order the two variable references by
ascending index before storing. -/
def newQuadraticTerm (coefficient : F64) (variable1 variable2 : ℕ) :
    quadraticTerm :=
  if variable1 ≤ variable2 then
    ⟨variable1, variable2, coefficient⟩
  else
    ⟨variable2, variable1, coefficient⟩

/-- One step of the makeQuadraticTermsUnique loop body (the nested Go map
keyed by Var1 then Var2 is embedded as a single map keyed by the pair). -/
def quadraticUniqueStep (terms : List ((ℕ × ℕ) × quadraticTerm))
    (v : quadraticTerm) : List ((ℕ × ℕ) × quadraticTerm) :=
  if v.coefficient.eqZero then terms
  else
    match mapLookup terms (v.variable1, v.variable2) with
    | none => terms ++ [((v.variable1, v.variable2), v)]
    | some qt =>
      let newCoef := v.coefficient.add qt.coefficient
      if newCoef.eqZero then mapDelete terms (v.variable1, v.variable2)
      else mapUpdate terms (v.variable1, v.variable2)
        ⟨v.variable1, v.variable2, newCoef⟩

/-- Embeds makeQuadraticTermsUnique. -/
def makeQuadraticTermsUnique (quadraticTerms : List quadraticTerm) :
    List quadraticTerm :=
  (quadraticTerms.foldl quadraticUniqueStep []).map (fun p => p.2)

/-- Embeds the objective struct. -/
structure objective where
  terms : List Term
  quadraticTerms : List quadraticTerm
  maximize : Bool
deriving DecidableEq

/-- Embeds the constraint struct (the owning model and the name live in
the model; constraint identity is its position in the constraint list). -/
structure constraint where
  terms : List Term
  rightHandSide : F64
  sense : Sense
deriving DecidableEq

/-- Embeds objective.NewTerm: reject NaN, then append the raw term.
The Go method panics on NaN; the embedding returns the error together
with the state as it is at that point (unchanged, the check runs first). -/
def objective.NewTerm (o : objective) (coefficient : F64) (varIdx : ℕ) :
    Except String GoMip.Term × objective :=
  if coefficient.isNaN then (.error "objective term coefficient is NaN", o)
  else
    let t : GoMip.Term := ⟨coefficient, varIdx⟩
    (.ok t, { o with terms := o.terms ++ [t] })

/-- Embeds objective.NewQuadraticTerm. -/
def objective.NewQuadraticTerm (o : objective) (coefficient : F64)
    (variable1 variable2 : ℕ) : Except String quadraticTerm × objective :=
  if coefficient.isNaN then
    (.error "constraint quadratic term coefficient is NaN", o)
  else
    let t := newQuadraticTerm coefficient variable1 variable2
    (.ok t, { o with quadraticTerms := o.quadraticTerms ++ [t] })

/-- Embeds objective.IsMaximize. -/
def objective.IsMaximize (o : objective) : Bool := o.maximize

/-- Embeds objective.IsQuadratic: the raw quadratic term slice is non-nil
and non-empty (a nil Go slice has length 0, so the embedded condition is
just that the list is non-empty). -/
def objective.IsQuadratic (o : objective) : Bool :=
  decide (0 < o.quadraticTerms.length)

/-- Embeds objective.IsLinear. -/
def objective.IsLinear (o : objective) : Bool := !o.IsQuadratic

/-- Embeds objective.Term: scan the raw terms, summing coefficients and
counting definitions for the given variable. -/
def objective.Term (o : objective) (varIdx : ℕ) : GoMip.Term × ℕ :=
  let p := o.terms.foldl
    (fun (acc : F64 × ℕ) t =>
      if t.varIdx = varIdx then (acc.1.add t.coefficient, acc.2 + 1)
      else acc)
    (F64.fin 0, 0)
  (⟨p.1, varIdx⟩, p.2)

/-- Embeds objective.Terms. -/
def objective.Terms (o : objective) : List GoMip.Term :=
  makeLinearTermsUnique o.terms

/-- Embeds objective.QuadraticTerms. -/
def objective.QuadraticTerms (o : objective) : List quadraticTerm :=
  makeQuadraticTermsUnique o.quadraticTerms

/-- Embeds constraint.NewTerm: reject NaN, then append the raw term. -/
def constraint.NewTerm (c : constraint) (coefficient : F64) (varIdx : ℕ) :
    Except String GoMip.Term × constraint :=
  if coefficient.isNaN then (.error "constraint term coefficient is NaN", c)
  else
    let t : GoMip.Term := ⟨coefficient, varIdx⟩
    (.ok t, { c with terms := c.terms ++ [t] })

/-- Embeds constraint.Term. -/
def constraint.Term (c : constraint) (varIdx : ℕ) : GoMip.Term × ℕ :=
  let p := c.terms.foldl
    (fun (acc : F64 × ℕ) t =>
      if t.varIdx = varIdx then (acc.1.add t.coefficient, acc.2 + 1)
      else acc)
    (F64.fin 0, 0)
  (⟨p.1, varIdx⟩, p.2)

/-- Embeds constraint.Terms. -/
def constraint.Terms (c : constraint) : List GoMip.Term :=
  makeLinearTermsUnique c.terms

/-- Embeds constraint.RightHandSide. -/
def constraint.RightHandSide (c : constraint) : F64 := c.rightHandSide

/-- Embeds constraint.Sense. -/
def constraint.SenseOf (c : constraint) : Sense := c.sense

example :
    makeLinearTermsUnique [⟨F64.fin 1, 0⟩, ⟨F64.fin (-1), 0⟩] = [] := by
  with_unfolding_all rfl

example :
    makeLinearTermsUnique [⟨F64.fin 2, 0⟩, ⟨F64.fin 1, 0⟩, ⟨F64.fin 3, 1⟩] =
      [⟨F64.fin 3, 0⟩, ⟨F64.fin 3, 1⟩] := by
  with_unfolding_all rfl

example :
    makeQuadraticTermsUnique
      [⟨0, 1, F64.fin 1⟩, ⟨0, 1, F64.fin (-1)⟩] = [] := by
  with_unfolding_all rfl

/-- Embeds the three variable structs floatVariable, intVariable and
boolVariable (float bounds are float64, int bounds are int64). -/
inductive Variable where
  | floatVariable (index : ℕ) (lowerBound upperBound : F64)
  | intVariable (index : ℕ) (lowerBound upperBound : ℤ)
  | boolVariable (index : ℕ)
deriving DecidableEq

/-- Embeds the Index method of the three variable kinds. -/
def Variable.Index : Variable → ℕ
  | .floatVariable i _ _ => i
  | .intVariable i _ _ => i
  | .boolVariable i => i

/-- Embeds the IsFloat methods. -/
def Variable.IsFloat : Variable → Bool
  | .floatVariable _ _ _ => true
  | _ => false

/-- Embeds the IsInt methods (a bool variable is also an int variable). -/
def Variable.IsInt : Variable → Bool
  | .floatVariable _ _ _ => false
  | _ => true

/-- Embeds the IsBool methods. -/
def Variable.IsBool : Variable → Bool
  | .boolVariable _ => true
  | _ => false

/-- Embeds LowerBound (returns float64: the int bound is converted, a
bool variable has the implicit bound 0). -/
def Variable.LowerBound : Variable → F64
  | .floatVariable _ lb _ => lb
  | .intVariable _ lb _ => .fin lb
  | .boolVariable _ => .fin 0

/-- Embeds UpperBound (bool variables have the implicit bound 1). -/
def Variable.UpperBound : Variable → F64
  | .floatVariable _ _ ub => ub
  | .intVariable _ _ ub => .fin ub
  | .boolVariable _ => .fin 1

/-- Embeds the Go conversion int64(x) on a float64 (truncation toward
zero; only applied by Copy to int variable bounds, where it is exact). -/
def F64.toInt64 : F64 → ℤ
  | .nan => 0
  | .fin q => if 0 ≤ q then ⌊q⌋ else ⌈q⌉

/-- Embeds the model struct. The two name side tables are keyed by
entity identity: for variables the index, for constraints the position
in the constraint list (both unique within one model). -/
structure model where
  objective : objective
  constraintNames : List (ℕ × String)
  varNames : List (ℕ × String)
  constraints : List constraint
  vars : List Variable
deriving DecidableEq

/-- Embeds NewModel. -/
def NewModel : model :=
  { objective := { terms := [], quadraticTerms := [], maximize := false }
    constraintNames := []
    varNames := []
    constraints := []
    vars := [] }

/-- Embeds model.setVarName. -/
def model.setVarName (m : model) (varIdx : ℕ) (name : String) : model :=
  { m with varNames := mapSet m.varNames varIdx name }

/-- Embeds model.getVarName: the empty string when the variable has no
entry in the side table. -/
def model.getVarName (m : model) (varIdx : ℕ) : String :=
  (mapLookup m.varNames varIdx).getD ""

/-- Embeds model.setConstraintName. -/
def model.setConstraintName (m : model) (cIdx : ℕ) (name : String) :
    model :=
  { m with constraintNames := mapSet m.constraintNames cIdx name }

/-- Embeds model.getConstraintName. -/
def model.getConstraintName (m : model) (cIdx : ℕ) : String :=
  (mapLookup m.constraintNames cIdx).getD ""

/-- Embeds the String method of the variable kinds: the assigned name, or
an auto-generated label from the kind letter and the index when the
side table yields the empty string. -/
def Variable.StringRep (m : model) (v : Variable) : String :=
  let name := m.getVarName v.Index
  if name = "" then
    (match v with
     | .floatVariable _ _ _ => "F"
     | .intVariable _ _ _ => "I"
     | .boolVariable _ => "B") ++ toString v.Index
  else name

/-- Embeds model.NewBool: index is the current length of the variable
slice. Returns the new variable index and the mutated model. -/
def model.NewBool (m : model) : ℕ × model :=
  let index := m.vars.length
  (index, { m with vars := m.vars ++ [.boolVariable index] })

/-- Embeds model.NewFloat: both bounds are checked for NaN before the
variable is linked. The Go method panics on NaN; the embedding returns
the error and the state as it is at the point of the panic. -/
def model.NewFloat (m : model) (lowerBound upperBound : F64) :
    Except String ℕ × model :=
  if lowerBound.isNaN then (.error "lower bound is NaN", m)
  else if upperBound.isNaN then (.error "upper bound is NaN", m)
  else
    let index := m.vars.length
    (.ok index,
      { m with vars := m.vars ++ [.floatVariable index lowerBound upperBound] })

/-- Embeds model.NewInt. -/
def model.NewInt (m : model) (lowerBound upperBound : ℤ) : ℕ × model :=
  let index := m.vars.length
  (index, { m with vars := m.vars ++ [.intVariable index lowerBound upperBound] })

/-- Embeds model.NewConstraint: the right-hand side is checked for NaN
before the constraint is linked. -/
def model.NewConstraint (m : model) (sense : Sense) (rightHandSide : F64) :
    Except String ℕ × model :=
  if rightHandSide.isNaN then (.error "right hand side is NaN", m)
  else
    (.ok m.constraints.length,
      { m with constraints :=
          m.constraints ++ [{ terms := [], rightHandSide := rightHandSide, sense := sense }] })

/-- Embeds model.Vars (the Go method returns a copied slice; in the
embedding a returned list is already a value). -/
def model.Vars (m : model) : List Variable := m.vars

/-- Embeds model.Constraints. -/
def model.Constraints (m : model) : List constraint := m.constraints

/-- Embeds model.Objective. -/
def model.Objective (m : model) : GoMip.objective := m.objective

/-- Copy helper: the per-variable body of the first loop of model.Copy
(switch on IsFloat, IsBool, IsInt; create the same kind in the copy and
transfer the name). -/
def copyVarStep (m : model) (cm : model) (v : Variable) :
    Except String model :=
  if v.IsFloat then
    match model.NewFloat cm v.LowerBound v.UpperBound with
    | (.ok idx, cm2) => .ok (cm2.setVarName idx (m.getVarName v.Index))
    | (.error e, _) => .error e
  else if v.IsBool then
    let (idx, cm2) := model.NewBool cm
    .ok (cm2.setVarName idx (m.getVarName v.Index))
  else if v.IsInt then
    let (idx, cm2) :=
      model.NewInt cm v.LowerBound.toInt64 v.UpperBound.toInt64
    .ok (cm2.setVarName idx (m.getVarName v.Index))
  else .ok cm

/-- Copy helper: replay one canonical objective term against the copy
(the Go code passes vars[t.Var().Index()] of the copied model). -/
def copyObjTermStep (vars : List Variable) (cm : model) (t : GoMip.Term) :
    Except String model :=
  let v := vars.getD t.varIdx (.boolVariable 0)
  match objective.NewTerm cm.objective t.coefficient v.Index with
  | (.ok _, o2) => .ok { cm with objective := o2 }
  | (.error e, _) => .error e

/-- Copy helper: replay one canonical constraint term against the copied
constraint at position cIdx. -/
def copyConstraintTermStep (vars : List Variable) (cIdx : ℕ) (cm : model)
    (t : GoMip.Term) : Except String model :=
  let v := vars.getD t.varIdx (.boolVariable 0)
  let c := cm.constraints.getD cIdx
    { terms := [], rightHandSide := .fin 0, sense := .LessThanOrEqual }
  match constraint.NewTerm c t.coefficient v.Index with
  | (.ok _, c2) => .ok { cm with constraints := cm.constraints.set cIdx c2 }
  | (.error e, _) => .error e

/-- Copy helper: the per-constraint body of the last loop of model.Copy:
a fresh constraint with the same sense and right-hand side, the canonical
terms of the source constraint replayed, and the name transferred. -/
def copyConstraintStep (m : model) (vars : List Variable) (cm : model)
    (ic : ℕ × constraint) : Except String model :=
  match model.NewConstraint cm ic.2.sense ic.2.rightHandSide with
  | (.ok cIdx, cm2) => do
    let cm3 ← (constraint.Terms ic.2).foldlM (copyConstraintTermStep vars cIdx) cm2
    .ok (cm3.setConstraintName cIdx (m.getConstraintName ic.1))
  | (.error e, _) => .error e

/-- Embeds model.Copy: recreate every variable in creation order with the
same kind, bounds and name, copy the objective sense, replay the
canonical linear objective terms, then recreate every constraint with its
sense, right-hand side, canonical terms and name. (The Go source replays
only Terms() of the objective; it has no loop over QuadraticTerms().) -/
def model.Copy (m : model) : Except String model := do
  let copyModel := NewModel
  let copyModel ← (model.Vars m).foldlM (copyVarStep m) copyModel
  let copyModel :=
    if (model.Objective m).IsMaximize then
      { copyModel with objective := { copyModel.objective with maximize := true } }
    else
      { copyModel with objective := { copyModel.objective with maximize := false } }
  let vars := model.Vars copyModel
  let copyModel ← (objective.Terms (model.Objective m)).foldlM
    (copyObjTermStep vars) copyModel
  let copyModel ← (model.Constraints m).enum.foldlM
    (copyConstraintStep m vars) copyModel
  return copyModel

/-! Helpers for stating the claims: runs of the construction API on a
fresh container, and the exact aggregate of a sequence of inputs. -/

/-- The raw term list produced by a sequence of successful newTerm calls:
one term per input pair (coefficient, variable index). -/
def toTerms (inputs : List (ℚ × ℕ)) : List Term :=
  inputs.map (fun p => ⟨.fin p.1, p.2⟩)

/-- Exact sum of all coefficients supplied for variable v. -/
def sumCoeffs (inputs : List (ℚ × ℕ)) (v : ℕ) : ℚ :=
  ((inputs.filter (fun p => decide (p.2 = v))).map (fun p => p.1)).sum

/-- Number of term definitions supplied for variable v. -/
def countDefs (inputs : List (ℚ × ℕ)) (v : ℕ) : ℕ :=
  (inputs.filter (fun p => decide (p.2 = v))).length

/-- Run a sequence of objective.NewTerm calls on the fresh objective of
NewModel (finite coefficients, so every call succeeds). -/
def runNewTerms (inputs : List (ℚ × ℕ)) : objective :=
  inputs.foldl (fun o p => (objective.NewTerm o (.fin p.1) p.2).2)
    NewModel.objective

/-- Run a sequence of constraint.NewTerm calls on a constraint freshly
created by model.NewConstraint with the given sense and right-hand side. -/
def runNewTermsC (s : Sense) (r : ℚ) (inputs : List (ℚ × ℕ)) : constraint :=
  inputs.foldl (fun c p => (constraint.NewTerm c (.fin p.1) p.2).2)
    { terms := [], rightHandSide := .fin r, sense := s }

theorem sumCoeffs_nil (v : ℕ) : sumCoeffs [] v = 0 := rfl

theorem sumCoeffs_cons (p : ℚ × ℕ) (rest : List (ℚ × ℕ)) (v : ℕ) :
    sumCoeffs (p :: rest) v =
      (if p.2 = v then p.1 else 0) + sumCoeffs rest v := by
  by_cases h : p.2 = v <;>
    simp [sumCoeffs, List.filter_cons, h]

theorem countDefs_nil (v : ℕ) : countDefs [] v = 0 := rfl

theorem countDefs_cons (p : ℚ × ℕ) (rest : List (ℚ × ℕ)) (v : ℕ) :
    countDefs (p :: rest) v =
      (if p.2 = v then 1 else 0) + countDefs rest v := by
  by_cases h : p.2 = v
  · simp [countDefs, List.filter_cons, h]
    omega
  · simp [countDefs, List.filter_cons, h]

theorem runNewTerms_terms (inputs : List (ℚ × ℕ)) :
    (runNewTerms inputs).terms = toTerms inputs ∧
      (runNewTerms inputs).quadraticTerms = [] ∧
      (runNewTerms inputs).maximize = false := by
  have key : ∀ (inputs : List (ℚ × ℕ)) (o : objective),
      (inputs.foldl (fun o p => (objective.NewTerm o (.fin p.1) p.2).2) o) =
        { o with terms := o.terms ++ toTerms inputs } := by
    intro inputs
    induction inputs with
    | nil => intro o; simp [toTerms]
    | cons p rest ih =>
      intro o
      rw [List.foldl_cons, ih]
      simp [objective.NewTerm, F64.isNaN, toTerms]
  rw [runNewTerms, key]
  simp [NewModel]

theorem runNewTermsC_terms (s : Sense) (r : ℚ) (inputs : List (ℚ × ℕ)) :
    (runNewTermsC s r inputs).terms = toTerms inputs ∧
      (runNewTermsC s r inputs).rightHandSide = .fin r ∧
      (runNewTermsC s r inputs).sense = s := by
  have key : ∀ (inputs : List (ℚ × ℕ)) (c : constraint),
      (inputs.foldl (fun c p => (constraint.NewTerm c (.fin p.1) p.2).2) c) =
        { c with terms := c.terms ++ toTerms inputs } := by
    intro inputs
    induction inputs with
    | nil => intro c; simp [toTerms]
    | cons p rest ih =>
      intro c
      rw [List.foldl_cons, ih]
      simp [constraint.NewTerm, F64.isNaN, toTerms]
  rw [runNewTermsC, key]
  simp

/-! Association-list lemmas used by the canonicalization invariant. -/

theorem mapLookup_eq_head_filter {κ α : Type} [DecidableEq κ]
    (l : List (κ × α)) (k : κ) :
    mapLookup l k =
      ((l.filter (fun p => decide (p.1 = k))).head?).map (fun p => p.2) := by
  induction l with
  | nil => rfl
  | cons p rest ih =>
    by_cases h : p.1 = k <;>
      simp [mapLookup, List.filter_cons, h, ih]

theorem filter_mapDelete_self {κ α : Type} [DecidableEq κ]
    (l : List (κ × α)) (k : κ) :
    (mapDelete l k).filter (fun p => decide (p.1 = k)) = [] := by
  rw [mapDelete, List.filter_filter]
  have : ∀ p : κ × α, (decide (p.1 = k) && !decide (p.1 = k)) = false := by
    intro p; by_cases h : p.1 = k <;> simp [h]
  simp only [this, List.filter_false]

theorem filter_mapDelete_ne {κ α : Type} [DecidableEq κ]
    (l : List (κ × α)) (k v : κ) (h : v ≠ k) :
    (mapDelete l k).filter (fun p => decide (p.1 = v)) =
      l.filter (fun p => decide (p.1 = v)) := by
  rw [mapDelete, List.filter_filter]
  refine List.filter_congr ?_
  intro p _
  by_cases hp : p.1 = v
  · have : p.1 ≠ k := by rw [hp]; exact h
    simp [hp, this, h]
  · simp [hp]

theorem filter_mapUpdate_self {κ α : Type} [DecidableEq κ]
    (l : List (κ × α)) (k : κ) (b : α) :
    (mapUpdate l k b).filter (fun p => decide (p.1 = k)) =
      (l.filter (fun p => decide (p.1 = k))).map (fun _ => (k, b)) := by
  rw [mapUpdate, List.filter_map]
  have h1 : l.filter ((fun p : κ × α => decide (p.1 = k)) ∘
      (fun p => if p.1 = k then (k, b) else p)) =
      l.filter (fun p => decide (p.1 = k)) := by
    refine List.filter_congr ?_
    intro p _
    by_cases hp : p.1 = k <;> simp [Function.comp, hp]
  rw [h1]
  refine List.map_congr_left ?_
  intro p hp
  rcases List.mem_filter.mp hp with ⟨_, hv⟩
  have hpk : p.1 = k := of_decide_eq_true hv
  simp [hpk]

theorem filter_mapUpdate_ne {κ α : Type} [DecidableEq κ]
    (l : List (κ × α)) (k v : κ) (b : α) (h : v ≠ k) :
    (mapUpdate l k b).filter (fun p => decide (p.1 = v)) =
      l.filter (fun p => decide (p.1 = v)) := by
  rw [mapUpdate, List.filter_map]
  have hcongr :
      (l.filter ((fun p : κ × α => decide (p.1 = v)) ∘
        (fun p => if p.1 = k then (k, b) else p))) =
        l.filter (fun p => decide (p.1 = v)) := by
    refine List.filter_congr ?_
    intro p _
    by_cases hp : p.1 = k
    · have hkv : ¬ k = v := fun hk => h hk.symm
      have hpv : ¬ p.1 = v := by rw [hp]; exact hkv
      simp [Function.comp, hp, hkv, hpv]
    · simp [Function.comp, hp]
  rw [hcongr]
  have h2 : List.map (fun p : κ × α => if p.1 = k then (k, b) else p)
      (l.filter (fun p => decide (p.1 = v))) =
      List.map id (l.filter (fun p => decide (p.1 = v))) := by
    refine List.map_congr_left ?_
    intro p hp
    rcases List.mem_filter.mp hp with ⟨_, hv⟩
    have hpv : p.1 = v := of_decide_eq_true hv
    have hpk : p.1 ≠ k := by rw [hpv]; exact h
    simp [hpk]
  rw [h2, List.map_id]

/-- Invariant of the makeLinearTermsUnique fold: if the accumulator map
holds, for every variable, exactly the running sum so far (no entry when
that sum is zero), then after folding further raw terms it holds the
updated running sums. -/
theorem linearUnique_fold_filter (inputs : List (ℚ × ℕ)) :
    ∀ (acc : List (ℕ × Term)) (S : ℕ → ℚ),
    (∀ w, acc.filter (fun p => decide (p.1 = w)) =
      if S w = 0 then [] else [(w, ⟨.fin (S w), w⟩)]) →
    ∀ v, ((toTerms inputs).foldl linearUniqueStep acc).filter
        (fun p => decide (p.1 = v)) =
      if S v + sumCoeffs inputs v = 0 then []
      else [(v, ⟨.fin (S v + sumCoeffs inputs v), v⟩)] := by
  induction inputs with
  | nil =>
    intro acc S hacc v
    simpa [toTerms, sumCoeffs_nil] using hacc v
  | cons p rest ih =>
    intro acc S hacc v
    have hstep : (toTerms (p :: rest)).foldl linearUniqueStep acc =
        (toTerms rest).foldl linearUniqueStep
          (linearUniqueStep acc ⟨.fin p.1, p.2⟩) := by
      simp [toTerms]
    rw [hstep]
    by_cases hc : p.1 = 0
    · -- zero coefficient: the term is skipped and contributes nothing
      have hskip : linearUniqueStep acc ⟨.fin p.1, p.2⟩ = acc := by
        simp [linearUniqueStep, F64.eqZero, hc]
      rw [hskip, ih acc S hacc v, sumCoeffs_cons]
      by_cases hv : p.2 = v <;> simp [hv, hc]
    · by_cases hS : S p.2 = 0
      · -- the variable is absent from the map: fresh insertion
        have hins : linearUniqueStep acc ⟨.fin p.1, p.2⟩ =
            acc ++ [(p.2, (⟨.fin p.1, p.2⟩ : Term))] := by
          simp [linearUniqueStep, F64.eqZero, hc, mapLookup_eq_head_filter,
            hacc p.2, hS]
        rw [hins]
        have hacc2 : ∀ w, (acc ++ [(p.2, (⟨.fin p.1, p.2⟩ : Term))]).filter
            (fun q => decide (q.1 = w)) =
            if (if w = p.2 then p.1 else S w) = 0 then []
            else [(w, ⟨.fin (if w = p.2 then p.1 else S w), w⟩)] := by
          intro w
          rw [List.filter_append, hacc w]
          by_cases hw : w = p.2
          · rw [hw, hS]
            simp [hc]
          · have hw2 : ¬ p.2 = w := fun h2 => hw h2.symm
            simp [hw, hw2]
        have hnext := ih (acc ++ [(p.2, (⟨.fin p.1, p.2⟩ : Term))])
          (fun w => if w = p.2 then p.1 else S w) hacc2 v
        rw [hnext]
        have hq : (if v = p.2 then p.1 else S v) + sumCoeffs rest v =
            S v + sumCoeffs (p :: rest) v := by
          rw [sumCoeffs_cons]
          by_cases hv : v = p.2
          · subst hv
            simp [hS]
          · have hv2 : ¬ p.2 = v := fun h2 => hv h2.symm
            simp [hv, hv2]
        rw [hq]
      · -- the variable is present in the map
        by_cases hz : S p.2 + p.1 = 0
        · -- the aggregate reaches exactly zero: delete the entry
          have hdel : linearUniqueStep acc ⟨.fin p.1, p.2⟩ =
              mapDelete acc p.2 := by
            simp [linearUniqueStep, F64.eqZero, hc, mapLookup_eq_head_filter,
              hacc p.2, hS, F64.add, hz]
          rw [hdel]
          have hacc2 : ∀ w, (mapDelete acc p.2).filter
              (fun q => decide (q.1 = w)) =
              if (if w = p.2 then 0 else S w) = 0 then []
              else [(w, ⟨.fin (if w = p.2 then 0 else S w), w⟩)] := by
            intro w
            by_cases hw : w = p.2
            · rw [hw, filter_mapDelete_self]
              simp
            · rw [filter_mapDelete_ne acc p.2 w hw, hacc w]
              simp [hw]
          have hnext := ih (mapDelete acc p.2)
            (fun w => if w = p.2 then 0 else S w) hacc2 v
          rw [hnext]
          have hq : (if v = p.2 then (0 : ℚ) else S v) + sumCoeffs rest v =
              S v + sumCoeffs (p :: rest) v := by
            rw [sumCoeffs_cons]
            by_cases hv : v = p.2
            · subst hv
              simp
              try linarith [hz]
            · have hv2 : ¬ p.2 = v := fun h2 => hv h2.symm
              simp [hv, hv2]
          rw [hq]
        · -- nonzero aggregate: overwrite the entry with the new sum
          have hupd : linearUniqueStep acc ⟨.fin p.1, p.2⟩ =
              mapUpdate acc p.2 ⟨.fin (S p.2 + p.1), p.2⟩ := by
            simp [linearUniqueStep, F64.eqZero, hc, mapLookup_eq_head_filter,
              hacc p.2, hS, F64.add, hz]
          rw [hupd]
          have hacc2 : ∀ w,
              (mapUpdate acc p.2 ⟨.fin (S p.2 + p.1), p.2⟩).filter
                (fun q => decide (q.1 = w)) =
              if (if w = p.2 then S p.2 + p.1 else S w) = 0 then []
              else [(w, ⟨.fin (if w = p.2 then S p.2 + p.1 else S w), w⟩)] := by
            intro w
            by_cases hw : w = p.2
            · rw [hw, filter_mapUpdate_self, hacc p.2]
              simp [hS, hz]
            · rw [filter_mapUpdate_ne acc p.2 w _ hw, hacc w]
              simp [hw]
          have hnext := ih (mapUpdate acc p.2 ⟨.fin (S p.2 + p.1), p.2⟩)
            (fun w => if w = p.2 then S p.2 + p.1 else S w) hacc2 v
          rw [hnext]
          have hq : (if v = p.2 then S p.2 + p.1 else S v) + sumCoeffs rest v =
              S v + sumCoeffs (p :: rest) v := by
            rw [sumCoeffs_cons]
            by_cases hv : v = p.2
            · subst hv
              simp
              try ring
            · have hv2 : ¬ p.2 = v := fun h2 => hv h2.symm
              simp [hv, hv2]
          rw [hq]

/-- Canonical characterization of makeLinearTermsUnique on the raw term
list produced by a sequence of newTerm inputs: exactly one canonical term
per variable with nonzero exact aggregate, none otherwise. -/
theorem makeLinearTermsUnique_filter (inputs : List (ℚ × ℕ)) (v : ℕ) :
    (makeLinearTermsUnique (toTerms inputs)).filter
        (fun t => decide (t.varIdx = v)) =
      if sumCoeffs inputs v = 0 then []
      else [⟨.fin (sumCoeffs inputs v), v⟩] := by
  have hbase : ∀ w : ℕ, (([] : List (ℕ × Term)).filter
      (fun p => decide (p.1 = w))) =
      if (0 : ℚ) = 0 then [] else [(w, ⟨.fin 0, w⟩)] := by
    intro w; simp
  have hchar := linearUnique_fold_filter inputs [] (fun _ => 0) hbase
  have hchar2 : ∀ w, ((toTerms inputs).foldl linearUniqueStep []).filter
      (fun p => decide (p.1 = w)) =
      if sumCoeffs inputs w = 0 then []
      else [(w, ⟨.fin (sumCoeffs inputs w), w⟩)] := by
    intro w
    have := hchar w
    rwa [zero_add] at this
  set A := (toTerms inputs).foldl linearUniqueStep [] with hA
  have hmem : ∀ p ∈ A, p.2.varIdx = p.1 := by
    intro p hp
    have hpfil : p ∈ A.filter (fun q => decide (q.1 = p.1)) :=
      List.mem_filter.mpr ⟨hp, by simp⟩
    rw [hchar2 p.1] at hpfil
    by_cases hz : sumCoeffs inputs p.1 = 0
    · rw [if_pos hz] at hpfil
      exact absurd hpfil (List.not_mem_nil p)
    · rw [if_neg hz] at hpfil
      have : p = (p.1, ⟨.fin (sumCoeffs inputs p.1), p.1⟩) := by
        simpa using hpfil
      rw [this]
  simp only [makeLinearTermsUnique]
  rw [← hA, List.filter_map]
  have hfc : A.filter ((fun t : Term => decide (t.varIdx = v)) ∘
      (fun p : ℕ × Term => p.2)) = A.filter (fun p => decide (p.1 = v)) := by
    refine List.filter_congr ?_
    intro p hp
    simp [Function.comp, hmem p hp]
  rw [hfc, hchar2 v]
  by_cases hz : sumCoeffs inputs v = 0 <;> simp [hz]

/-- Characterization of the Term query scan: starting the scan of the raw
terms of a run at a partial sum and count yields the exact aggregate and
the number of definitions. -/
theorem term_fold_char (inputs : List (ℚ × ℕ)) (v : ℕ) :
    ∀ (a : ℚ) (n : ℕ),
    ((toTerms inputs).foldl
      (fun (acc : F64 × ℕ) t =>
        if t.varIdx = v then (acc.1.add t.coefficient, acc.2 + 1) else acc)
      (.fin a, n)) =
    (.fin (a + sumCoeffs inputs v), n + countDefs inputs v) := by
  induction inputs with
  | nil =>
    intro a n
    simp [toTerms, sumCoeffs_nil, countDefs_nil]
  | cons p rest ih =>
    intro a n
    have hcons : toTerms (p :: rest) =
        (⟨.fin p.1, p.2⟩ : Term) :: toTerms rest := rfl
    rw [hcons, List.foldl_cons]
    change (toTerms rest).foldl _
      (if p.2 = v then ((F64.fin a).add (F64.fin p.1), n + 1)
       else (F64.fin a, n)) = _
    by_cases hv : p.2 = v
    · rw [if_pos hv]
      have hadd : (F64.fin a).add (F64.fin p.1) = F64.fin (a + p.1) := rfl
      rw [hadd, ih (a + p.1) (n + 1), sumCoeffs_cons, countDefs_cons,
        if_pos hv, if_pos hv]
      simp only [Prod.mk.injEq, F64.fin.injEq]
      exact ⟨by ring, by omega⟩
    · rw [if_neg hv]
      rw [ih a n, sumCoeffs_cons, countDefs_cons, if_neg hv, if_neg hv]
      simp

/-- The Term query on an objective built by a run of newTerm calls. -/
theorem objective_Term_run (inputs : List (ℚ × ℕ)) (v : ℕ) :
    objective.Term (runNewTerms inputs) v =
      (⟨.fin (sumCoeffs inputs v), v⟩, countDefs inputs v) := by
  have hterms := (runNewTerms_terms inputs).1
  simp only [objective.Term, hterms]
  rw [term_fold_char inputs v 0 0]
  simp

/-- The Term query on a constraint built by a run of newTerm calls. -/
theorem constraint_Term_run (s : Sense) (r : ℚ) (inputs : List (ℚ × ℕ))
    (v : ℕ) :
    constraint.Term (runNewTermsC s r inputs) v =
      (⟨.fin (sumCoeffs inputs v), v⟩, countDefs inputs v) := by
  have hterms := (runNewTermsC_terms s r inputs).1
  simp only [constraint.Term, hterms]
  rw [term_fold_char inputs v 0 0]
  simp

/-- C1: for every sequence of newTerm calls on a fresh container
(objective or constraint), the canonical set returned by Terms contains
exactly one entry per distinct variable whose aggregate coefficient is
nonzero, that entry carrying the exact sum of all coefficients supplied
for the variable, and no entry at all for a variable whose aggregate is
exactly zero. -/
theorem C1_canonical_terms (inputs : List (ℚ × ℕ)) (v : ℕ) :
    ((objective.Terms (runNewTerms inputs)).filter
        (fun t => decide (t.varIdx = v)) =
      if sumCoeffs inputs v = 0 then []
      else [⟨.fin (sumCoeffs inputs v), v⟩]) ∧
    ∀ (s : Sense) (r : ℚ),
      (constraint.Terms (runNewTermsC s r inputs)).filter
          (fun t => decide (t.varIdx = v)) =
        if sumCoeffs inputs v = 0 then []
        else [⟨.fin (sumCoeffs inputs v), v⟩] := by
  constructor
  · rw [objective.Terms, (runNewTerms_terms inputs).1]
    exact makeLinearTermsUnique_filter inputs v
  · intro s r
    rw [constraint.Terms, (runNewTermsC_terms s r inputs).1]
    exact makeLinearTermsUnique_filter inputs v

/-- C7: for every term container (objective or constraint) built by a
sequence of newTerm calls, the Term query returns the synthesized term
whose coefficient is the exact sum of all raw coefficients declared for
the variable together with the number of raw declarations, and
(0, count 0) for a variable never referenced. -/
theorem C7_term_query (inputs : List (ℚ × ℕ)) (v : ℕ) :
    (objective.Term (runNewTerms inputs) v =
      (⟨.fin (sumCoeffs inputs v), v⟩, countDefs inputs v)) ∧
    (∀ (s : Sense) (r : ℚ),
      constraint.Term (runNewTermsC s r inputs) v =
        (⟨.fin (sumCoeffs inputs v), v⟩, countDefs inputs v)) ∧
    (objective.Term (runNewTerms [(2, 0), (1, 0), (3, 1)]) 0 =
      (⟨.fin 3, 0⟩, 2)) ∧
    (objective.Term (runNewTerms [(2, 0), (1, 0), (3, 1)]) 1 =
      (⟨.fin 3, 1⟩, 1)) ∧
    (objective.Term (runNewTerms [(2, 0), (1, 0), (3, 1)]) 2 =
      (⟨.fin 0, 2⟩, 0)) := by
  refine ⟨objective_Term_run inputs v,
    fun s r => constraint_Term_run s r inputs v, ?_, ?_, ?_⟩
  · rw [objective_Term_run]
    have h1 : sumCoeffs [(2, 0), (1, 0), (3, 1)] 0 = 3 := by
      simp [sumCoeffs, List.filter_cons]
      norm_num
    have h2 : countDefs [(2, 0), (1, 0), (3, 1)] 0 = 2 := by
      simp [countDefs, List.filter_cons]
    rw [h1, h2]
  · rw [objective_Term_run]
    have h1 : sumCoeffs [(2, 0), (1, 0), (3, 1)] 1 = 3 := by
      simp [sumCoeffs, List.filter_cons]
    have h2 : countDefs [(2, 0), (1, 0), (3, 1)] 1 = 1 := by
      simp [countDefs, List.filter_cons]
    rw [h1, h2]
  · rw [objective_Term_run]
    have h1 : sumCoeffs [(2, 0), (1, 0), (3, 1)] 2 = 0 := by
      simp [sumCoeffs, List.filter_cons]
    have h2 : countDefs [(2, 0), (1, 0), (3, 1)] 2 = 0 := by
      simp [countDefs, List.filter_cons]
    rw [h1, h2]

theorem sumCoeffs_append_zero (inputs : List (ℚ × ℕ)) (x : ℕ) :
    sumCoeffs (inputs ++ [(0, x)]) x = sumCoeffs inputs x := by
  simp [sumCoeffs, List.filter_append]

theorem countDefs_append_zero (inputs : List (ℚ × ℕ)) (x : ℕ) :
    countDefs (inputs ++ [(0, x)]) x = countDefs inputs x + 1 := by
  simp [countDefs, List.filter_append]

/-- C10: a raw term with coefficient exactly 0 increments the definition
count of the Term query without changing its summed coefficient, leaves
the canonical Terms set untouched, and on a fresh container a single
newTerm(0, x) yields Term(x) = (0, 1) and an empty canonical set. -/
theorem C10_zero_coefficient_term (inputs : List (ℚ × ℕ)) (x : ℕ) :
    ((objective.Term (runNewTerms (inputs ++ [(0, x)])) x).2 =
      (objective.Term (runNewTerms inputs) x).2 + 1) ∧
    ((objective.Term (runNewTerms (inputs ++ [(0, x)])) x).1 =
      (objective.Term (runNewTerms inputs) x).1) ∧
    (objective.Terms (runNewTerms (inputs ++ [(0, x)])) =
      objective.Terms (runNewTerms inputs)) ∧
    (objective.Term (runNewTerms [(0, x)]) x = (⟨.fin 0, x⟩, 1)) ∧
    (objective.Terms (runNewTerms [(0, x)]) = []) := by
  refine ⟨?_, ?_, ?_, ?_, ?_⟩
  · rw [objective_Term_run, objective_Term_run, countDefs_append_zero]
  · rw [objective_Term_run, objective_Term_run, sumCoeffs_append_zero]
  · rw [objective.Terms, objective.Terms, (runNewTerms_terms inputs).1,
      (runNewTerms_terms (inputs ++ [(0, x)])).1]
    have happ : toTerms (inputs ++ [(0, x)]) =
        toTerms inputs ++ [⟨.fin 0, x⟩] := by
      simp [toTerms]
    rw [happ]
    simp [makeLinearTermsUnique, List.foldl_append, linearUniqueStep,
      F64.eqZero]
  · rw [objective_Term_run]
    have h1 : sumCoeffs [(0, x)] x = 0 := by
      simp [sumCoeffs]
    have h2 : countDefs [(0, x)] x = 1 := by
      simp [countDefs]
    rw [h1, h2]
  · rw [objective.Terms, (runNewTerms_terms [(0, x)]).1]
    simp [toTerms, makeLinearTermsUnique, linearUniqueStep, F64.eqZero]

/-- newQuadraticTerm always stores the pair sorted by index. -/
theorem newQuadraticTerm_minmax (c : F64) (A B : ℕ) :
    newQuadraticTerm c A B = ⟨min A B, max A B, c⟩ := by
  by_cases h : A ≤ B <;>
    simp [newQuadraticTerm, min_def, max_def, h]

/-- The stored pair of newQuadraticTerm is ordered by ascending index. -/
theorem newQuadraticTerm_sorted (c : F64) (v1 v2 : ℕ) :
    (newQuadraticTerm c v1 v2).variable1 ≤
      (newQuadraticTerm c v1 v2).variable2 := by
  by_cases h : v1 ≤ v2
  · simp [newQuadraticTerm, h]
  · simp [newQuadraticTerm, h]
    omega

/-- Two successive NewQuadraticTerm calls with swapped argument order on
the fresh objective of NewModel. -/
def runTwoQuadratic (c c2 : ℚ) (A B : ℕ) : objective :=
  (objective.NewQuadraticTerm
    ((objective.NewQuadraticTerm NewModel.objective (.fin c) A B).2)
    (.fin c2) B A).2

theorem runTwoQuadratic_raw (c c2 : ℚ) (A B : ℕ) :
    (runTwoQuadratic c c2 A B).quadraticTerms =
      [⟨min A B, max A B, .fin c⟩, ⟨min A B, max A B, .fin c2⟩] := by
  simp [runTwoQuadratic, objective.NewQuadraticTerm, F64.isNaN, NewModel,
    newQuadraticTerm_minmax, min_comm, max_comm]

/-- Aggregation of two raw quadratic terms on the same ordered pair:
one canonical term carrying the exact sum, or nothing when the sum is
exactly zero. -/
theorem quad_two_terms (a b : ℕ) (c c2 : ℚ) :
    makeQuadraticTermsUnique [⟨a, b, .fin c⟩, ⟨a, b, .fin c2⟩] =
      if c + c2 = 0 then [] else [⟨a, b, .fin (c + c2)⟩] := by
  by_cases hc : c = 0
  · by_cases hc2 : c2 = 0
    · simp [makeQuadraticTermsUnique, quadraticUniqueStep, F64.eqZero,
        hc, hc2]
    · have hz : ¬ c + c2 = 0 := by rw [hc]; simpa using hc2
      simp [makeQuadraticTermsUnique, quadraticUniqueStep, F64.eqZero,
        hc, hc2, hz, mapLookup]
      try rw [hc]
      try ring
  · by_cases hc2 : c2 = 0
    · have hz : ¬ c + c2 = 0 := by rw [hc2]; simpa using hc
      simp [makeQuadraticTermsUnique, quadraticUniqueStep, F64.eqZero,
        hc, hc2, hz, mapLookup]
      try rw [hc2]
      try ring
    · by_cases hz : c + c2 = 0
      · have hz2 : c2 + c = 0 := by linarith [hz]
        simp [makeQuadraticTermsUnique, quadraticUniqueStep, F64.eqZero,
          hc, hc2, hz, mapLookup, F64.add, hz2, mapDelete]
      · have hz2 : ¬ c2 + c = 0 := fun h => hz (by linarith [h])
        simp [makeQuadraticTermsUnique, quadraticUniqueStep, F64.eqZero,
          hc, hc2, hz, mapLookup, F64.add, hz2, mapUpdate]
        try ring

/-- C2 counterexample: newQuadraticTerm(1, A, B) followed by
newQuadraticTerm(-1, B, A) leaves no canonical quadratic term at all for
the pair (the zero aggregate is omitted), refuting the unconditional
claim that exactly one canonical term with coefficient c+c2 results. -/
theorem C2_counterexample :
    ¬ ((((runTwoQuadratic 1 (-1) 0 1).QuadraticTerms).filter
        (fun t => decide (t.variable1 = 0 ∧ t.variable2 = 1))).length = 1) := by
  have hcanon : (runTwoQuadratic 1 (-1) 0 1).QuadraticTerms = [] := by
    rw [objective.QuadraticTerms, runTwoQuadratic_raw, quad_two_terms]
    norm_num
  rw [hcanon]
  simp

/-- C2 amended: two NewQuadraticTerm calls with coefficients c and c2 and
swapped variable order accumulate into the same canonical slot: exactly
one canonical term for the ordered pair with coefficient c+c2 when
c+c2 is nonzero, and no term at all when c+c2 = 0; every stored and every
returned quadratic term has variable1 ≤ variable2. -/
theorem C2_amended_quadratic (c c2 : ℚ) (A B : ℕ) :
    ((runTwoQuadratic c c2 A B).QuadraticTerms =
      if c + c2 = 0 then []
      else [⟨min A B, max A B, .fin (c + c2)⟩]) ∧
    (∀ (coefficient : F64) (v1 v2 : ℕ),
      (newQuadraticTerm coefficient v1 v2).variable1 ≤
        (newQuadraticTerm coefficient v1 v2).variable2) ∧
    ((runTwoQuadratic c c2 A B).quadraticTerms.all
      (fun t => decide (t.variable1 ≤ t.variable2)) = true) ∧
    ((runTwoQuadratic c c2 A B).QuadraticTerms.all
      (fun t => decide (t.variable1 ≤ t.variable2)) = true) := by
  have hmain : (runTwoQuadratic c c2 A B).QuadraticTerms =
      if c + c2 = 0 then []
      else [⟨min A B, max A B, .fin (c + c2)⟩] := by
    rw [objective.QuadraticTerms, runTwoQuadratic_raw, quad_two_terms]
  refine ⟨hmain, newQuadraticTerm_sorted, ?_, ?_⟩
  · rw [runTwoQuadratic_raw]
    simp [min_le_max]
  · rw [hmain]
    by_cases hz : c + c2 = 0
    · simp [hz]
    · simp [hz, min_le_max]

/-- Objective with two quadratic declarations on the same pair whose
coefficients aggregate to exactly zero. -/
def C4obj : objective :=
  (objective.NewQuadraticTerm
    ((objective.NewQuadraticTerm NewModel.objective (.fin 1) 0 0).2)
    (.fin (-1)) 0 0).2

theorem C4obj_raw : C4obj.quadraticTerms =
    [⟨0, 0, .fin 1⟩, ⟨0, 0, .fin (-1)⟩] := by
  simp [C4obj, objective.NewQuadraticTerm, F64.isNaN, NewModel,
    newQuadraticTerm]

/-- C4 counterexample: an objective whose only quadratic declarations
aggregate to coefficient zero has an empty canonical quadratic set yet
IsQuadratic still returns true (the code checks the raw list), so the
claimed equivalence with the canonical set is false (and the objective is
not classified linear). -/
theorem C4_counterexample :
    ¬ ((objective.IsQuadratic C4obj = true) ↔
        objective.QuadraticTerms C4obj ≠ []) := by
  have hcanon : objective.QuadraticTerms C4obj = [] := by
    rw [objective.QuadraticTerms, C4obj_raw, quad_two_terms]
    norm_num
  have hq : objective.IsQuadratic C4obj = true := by
    rw [objective.IsQuadratic, C4obj_raw]
    simp
  intro hiff
  exact (hiff.mp hq) hcanon

/-- C4 amended: IsQuadratic returns true iff at least one raw quadratic
term has been declared (regardless of the aggregate), and IsLinear always
returns the negation of IsQuadratic. -/
theorem C4_amended (o : objective) :
    (objective.IsQuadratic o = !o.quadraticTerms.isEmpty) ∧
    (objective.IsLinear o = !objective.IsQuadratic o) := by
  constructor
  · rcases o with ⟨ts, qts, mx⟩
    cases qts <;> simp [objective.IsQuadratic]
  · rfl

/-- A variable creation request: the three construction operations with
non-NaN bounds (NaN input is the subject of the error-handling claim). -/
inductive VarReq where
  | float (lowerBound upperBound : ℚ) : VarReq
  | int (lowerBound upperBound : ℤ) : VarReq
  | bool : VarReq

/-- Apply one creation request to a model. -/
def applyVarReq (m : model) : VarReq → model
  | .float lb ub => (model.NewFloat m (.fin lb) (.fin ub)).2
  | .int lb ub => (model.NewInt m lb ub).2
  | .bool => (model.NewBool m).2

/-- The variable record a request creates at a given index. -/
def mkVar (r : VarReq) (index : ℕ) : Variable :=
  match r with
  | .float lb ub => .floatVariable index (.fin lb) (.fin ub)
  | .int lb ub => .intVariable index lb ub
  | .bool => .boolVariable index

/-- Run a mixed sequence of creation requests on a fresh model. -/
def runVarReqs (reqs : List VarReq) : model :=
  reqs.foldl applyVarReq NewModel

theorem applyVarReq_vars (m : model) (r : VarReq) :
    (applyVarReq m r).vars = m.vars ++ [mkVar r m.vars.length] := by
  cases r <;>
    simp [applyVarReq, model.NewFloat, model.NewInt, model.NewBool,
      F64.isNaN, mkVar]

/-- The variables a request list creates when numbering starts at n. -/
def buildVars (n : ℕ) : List VarReq → List Variable
  | [] => []
  | r :: rest => mkVar r n :: buildVars (n + 1) rest

theorem buildVars_length (reqs : List VarReq) :
    ∀ n, (buildVars n reqs).length = reqs.length := by
  induction reqs with
  | nil => intro n; rfl
  | cons r rest ih => intro n; simp [buildVars, ih]

theorem mkVar_Index (r : VarReq) (n : ℕ) : (mkVar r n).Index = n := by
  cases r <;> rfl

theorem buildVars_indices (reqs : List VarReq) :
    ∀ n, (buildVars n reqs).map Variable.Index =
      List.range' n reqs.length := by
  induction reqs with
  | nil => intro n; rfl
  | cons r rest ih =>
    intro n
    simp only [buildVars, List.length_cons, List.map_cons, mkVar_Index,
      ih, List.range'_succ]

theorem buildVars_append (reqs more : List VarReq) :
    ∀ n, buildVars n (reqs ++ more) =
      buildVars n reqs ++ buildVars (n + reqs.length) more := by
  induction reqs with
  | nil => intro n; simp [buildVars]
  | cons r rest ih =>
    intro n
    have harith : n + 1 + rest.length = n + (rest.length + 1) := by omega
    simp only [List.cons_append, buildVars, List.length_cons,
      List.append_eq, ih (n + 1), harith]

theorem fold_vars (reqs : List VarReq) :
    ∀ m : model, (reqs.foldl applyVarReq m).vars =
      m.vars ++ buildVars m.vars.length reqs := by
  induction reqs with
  | nil => intro m; simp [buildVars]
  | cons r rest ih =>
    intro m
    rw [List.foldl_cons, ih (applyVarReq m r), applyVarReq_vars]
    have hlen : (m.vars ++ [mkVar r m.vars.length]).length =
        m.vars.length + 1 := by simp
    rw [hlen]
    simp [buildVars]

/-- C5: a mixed sequence of n variable creation calls on a fresh model
assigns exactly the indices 0, 1, ..., n-1 in call order (dense,
zero-based, strictly increasing), and the variables created by a prefix
of calls are untouched by later calls. -/
theorem C5_dense_indices (reqs : List VarReq) :
    ((runVarReqs reqs).vars.map Variable.Index = List.range reqs.length) ∧
    ((runVarReqs reqs).vars.length = reqs.length) ∧
    (∀ more : List VarReq,
      (runVarReqs (reqs ++ more)).vars.take reqs.length =
        (runVarReqs reqs).vars) := by
  have hrun : ∀ rs : List VarReq, (runVarReqs rs).vars = buildVars 0 rs := by
    intro rs
    rw [runVarReqs, fold_vars]
    simp [NewModel]
  refine ⟨?_, ?_, ?_⟩
  · rw [hrun, buildVars_indices, List.range_eq_range']
  · rw [hrun, buildVars_length]
  · intro more
    rw [hrun, hrun, buildVars_append reqs more 0]
    have hlen := buildVars_length reqs 0
    rw [← hlen, List.take_left]

/-- Returns true when an Except value is the ok outcome (the call did not
panic). -/
def isOkE {α : Type} : Except String α → Bool
  | .ok _ => true
  | .error _ => false

/-- C6: every construction operation checks its NaN input before linking
the new entity: on NaN input the call errors and every container is left
exactly as it was (variable, constraint and term counts unchanged); on
non-NaN input the call succeeds and appends exactly the new entity. -/
theorem C6_nan_rejection :
    (∀ (m : model) (lb ub : F64),
      ((model.NewFloat m lb ub).2.vars =
        if lb.isNaN || ub.isNaN then m.vars
        else m.vars ++ [.floatVariable m.vars.length lb ub]) ∧
      ((model.NewFloat m lb ub).2.vars.length =
        if lb.isNaN || ub.isNaN then m.vars.length
        else m.vars.length + 1) ∧
      (isOkE (model.NewFloat m lb ub).1 = !(lb.isNaN || ub.isNaN)) ∧
      ((model.NewFloat m lb ub).2.constraints = m.constraints) ∧
      ((model.NewFloat m lb ub).2.objective = m.objective)) ∧
    (∀ (m : model) (s : Sense) (rhs : F64),
      ((model.NewConstraint m s rhs).2.constraints =
        if rhs.isNaN then m.constraints
        else m.constraints ++ [⟨[], rhs, s⟩]) ∧
      ((model.NewConstraint m s rhs).2.constraints.length =
        if rhs.isNaN then m.constraints.length
        else m.constraints.length + 1) ∧
      (isOkE (model.NewConstraint m s rhs).1 = !rhs.isNaN) ∧
      ((model.NewConstraint m s rhs).2.vars = m.vars) ∧
      ((model.NewConstraint m s rhs).2.objective = m.objective)) ∧
    (∀ (o : objective) (c : F64) (v : ℕ),
      ((objective.NewTerm o c v).2.terms =
        if c.isNaN then o.terms else o.terms ++ [⟨c, v⟩]) ∧
      ((objective.NewTerm o c v).2.terms.length =
        if c.isNaN then o.terms.length else o.terms.length + 1) ∧
      (isOkE (objective.NewTerm o c v).1 = !c.isNaN) ∧
      ((objective.NewTerm o c v).2.quadraticTerms = o.quadraticTerms)) ∧
    (∀ (o : objective) (c : F64) (v1 v2 : ℕ),
      ((objective.NewQuadraticTerm o c v1 v2).2.quadraticTerms =
        if c.isNaN then o.quadraticTerms
        else o.quadraticTerms ++ [newQuadraticTerm c v1 v2]) ∧
      ((objective.NewQuadraticTerm o c v1 v2).2.quadraticTerms.length =
        if c.isNaN then o.quadraticTerms.length
        else o.quadraticTerms.length + 1) ∧
      (isOkE (objective.NewQuadraticTerm o c v1 v2).1 = !c.isNaN) ∧
      ((objective.NewQuadraticTerm o c v1 v2).2.terms = o.terms)) ∧
    (∀ (cst : constraint) (c : F64) (v : ℕ),
      ((constraint.NewTerm cst c v).2.terms =
        if c.isNaN then cst.terms else cst.terms ++ [⟨c, v⟩]) ∧
      ((constraint.NewTerm cst c v).2.terms.length =
        if c.isNaN then cst.terms.length else cst.terms.length + 1) ∧
      (isOkE (constraint.NewTerm cst c v).1 = !c.isNaN) ∧
      ((constraint.NewTerm cst c v).2.rightHandSide = cst.rightHandSide)) := by
  refine ⟨?_, ?_, ?_, ?_, ?_⟩
  · intro m lb ub
    cases lb <;> cases ub <;>
      simp [model.NewFloat, F64.isNaN, isOkE]
  · intro m s rhs
    cases rhs <;>
      simp [model.NewConstraint, F64.isNaN, isOkE]
  · intro o c v
    cases c <;>
      simp [objective.NewTerm, F64.isNaN, isOkE]
  · intro o c v1 v2
    cases c <;>
      simp [objective.NewQuadraticTerm, F64.isNaN, isOkE]
  · intro cst c v
    cases c <;>
      simp [constraint.NewTerm, F64.isNaN, isOkE]

/-- A fresh model holding exactly one bool variable with no name set. -/
def C8model : model := (model.NewBool NewModel).2

/-- C8 (code bug exhibit): for a variable whose name was never set the
name query returns the empty string, not the auto-generated label the
interface documentation promises; the kind-and-index label B0 appears
only in the String rendering; after setVarName the name query returns
the assigned name. -/
theorem C8_unset_name_empty :
    (C8model.vars = [.boolVariable 0]) ∧
    (model.getVarName C8model 0 = "") ∧
    (Variable.StringRep C8model (.boolVariable 0) = "B0") ∧
    (model.getVarName (model.setVarName C8model 0 "x") 0 = "x") ∧
    (Variable.StringRep (model.setVarName C8model 0 "x")
      (.boolVariable 0) = "x") := by
  refine ⟨rfl, rfl, ?_, rfl, ?_⟩
  · with_unfolding_all rfl
  · with_unfolding_all rfl

/-- A model with one bool variable x and the single quadratic objective
term 1 * x * x. -/
def C3model : model :=
  let m1 := (model.NewBool NewModel).2
  { m1 with objective :=
      (objective.NewQuadraticTerm m1.objective (.fin 1) 0 0).2 }

/-- C3 (code bug exhibit): the source objective has the canonical
quadratic term 1 * x^2 and is quadratic, but Copy replays only the linear
Terms() of the objective (the Go source has no loop over
QuadraticTerms()), so the copied model objective has an empty quadratic
term store: the canonical quadratic term sets of source and copy differ. -/
theorem C3_copy_drops_quadratic :
    (objective.QuadraticTerms C3model.objective = [⟨0, 0, .fin 1⟩]) ∧
    (objective.IsQuadratic C3model.objective = true) ∧
    (model.Copy C3model = .ok
      { objective := { terms := [], quadraticTerms := [], maximize := false }
        constraintNames := []
        varNames := [(0, "")]
        constraints := []
        vars := [.boolVariable 0] }) ∧
    (objective.IsQuadratic
      { terms := [], quadraticTerms := [], maximize := false } = false) := by
  refine ⟨?_, ?_, ?_, rfl⟩
  · with_unfolding_all rfl
  · with_unfolding_all rfl
  · with_unfolding_all rfl

/-! Slice-level refinement for the defensive-copy claim: Go slices are
references into a heap of arrays; make + copy allocates a fresh array.
The model-owned slice is a reference r into the heap; Vars and
Constraints return a fresh reference to a copy of its contents. -/

/-- Read the array a slice reference designates. -/
def heapRead {α : Type} (h : List (List α)) (r : ℕ) : List α := h.getD r []

/-- Allocate a fresh array: its reference is the next free heap cell. -/
def heapAlloc {α : Type} (h : List (List α)) (contents : List α) :
    ℕ × List (List α) := (h.length, h ++ [contents])

/-- Overwrite one entry of the array a slice reference designates. -/
def heapWriteIdx {α : Type} (h : List (List α)) (r i : ℕ) (a : α) :
    List (List α) := h.set r ((heapRead h r).set i a)

/-- Embeds the body of model.Vars and model.Constraints at slice level:
make a fresh array of the same length, copy the contents, return it. -/
def copySliceGo {α : Type} (h : List (List α)) (r : ℕ) :
    ℕ × List (List α) := heapAlloc h (heapRead h r)

/-- Appending to a full-capacity slice (make allocates capacity = length)
reallocates: the result is a fresh array, the source array untouched. -/
def sliceAppendGo {α : Type} (h : List (List α)) (r : ℕ) (a : α) :
    ℕ × List (List α) := heapAlloc h (heapRead h r ++ [a])

/-- model.Vars at slice level. -/
def model.VarsGo (h : List (List Variable)) (r : ℕ) :
    ℕ × List (List Variable) := copySliceGo h r

/-- model.Constraints at slice level. -/
def model.ConstraintsGo (h : List (List constraint)) (r : ℕ) :
    ℕ × List (List constraint) := copySliceGo h r

theorem heapRead_append {α : Type} (h : List (List α)) (x : List α)
    (r : ℕ) (hr : r < h.length) : heapRead (h ++ [x]) r = heapRead h r := by
  rw [heapRead, heapRead, List.getD_append h [x] [] r hr]

theorem heapRead_alloc_new {α : Type} (h : List (List α)) (x : List α) :
    heapRead (h ++ [x]) h.length = x := by
  rw [heapRead, List.getD_eq_getElem?_getD, List.getElem?_concat_length]
  rfl

theorem heapRead_set_ne {α : Type} (h : List (List α)) (r r2 : ℕ)
    (l : List α) (hne : r2 ≠ r) : heapRead (h.set r2 l) r = heapRead h r := by
  rw [heapRead, heapRead, List.getD_eq_getElem?_getD,
    List.getD_eq_getElem?_getD, List.getElem?_set_ne hne]

/-- C9: Vars and Constraints return defensive copies: the returned slice
is a freshly allocated array holding the same contents, its reference is
distinct from the model-owned one, and neither overwriting an entry of
the returned slice nor appending to it changes the model-owned sequence. -/
theorem C9_defensive_copies (hv : List (List Variable))
    (hc : List (List constraint)) (rv rc : ℕ)
    (hrv : rv < hv.length) (hrc : rc < hc.length) :
    ((heapRead (model.VarsGo hv rv).2 rv = heapRead hv rv) ∧
     (heapRead (model.VarsGo hv rv).2 (model.VarsGo hv rv).1 =
       heapRead hv rv) ∧
     ((model.VarsGo hv rv).1 ≠ rv) ∧
     (∀ (i : ℕ) (a : Variable),
       heapRead (heapWriteIdx (model.VarsGo hv rv).2 (model.VarsGo hv rv).1
         i a) rv = heapRead hv rv) ∧
     (∀ a : Variable,
       heapRead (sliceAppendGo (model.VarsGo hv rv).2
         (model.VarsGo hv rv).1 a).2 rv = heapRead hv rv)) ∧
    ((heapRead (model.ConstraintsGo hc rc).2 rc = heapRead hc rc) ∧
     (heapRead (model.ConstraintsGo hc rc).2 (model.ConstraintsGo hc rc).1 =
       heapRead hc rc) ∧
     ((model.ConstraintsGo hc rc).1 ≠ rc) ∧
     (∀ (i : ℕ) (a : constraint),
       heapRead (heapWriteIdx (model.ConstraintsGo hc rc).2
         (model.ConstraintsGo hc rc).1 i a) rc = heapRead hc rc) ∧
     (∀ a : constraint,
       heapRead (sliceAppendGo (model.ConstraintsGo hc rc).2
         (model.ConstraintsGo hc rc).1 a).2 rc = heapRead hc rc)) := by
  have main : ∀ (α : Type) (h : List (List α)) (r : ℕ), r < h.length →
      (heapRead (copySliceGo h r).2 r = heapRead h r) ∧
      (heapRead (copySliceGo h r).2 (copySliceGo h r).1 = heapRead h r) ∧
      ((copySliceGo h r).1 ≠ r) ∧
      (∀ (i : ℕ) (a : α),
        heapRead (heapWriteIdx (copySliceGo h r).2 (copySliceGo h r).1 i a)
          r = heapRead h r) ∧
      (∀ a : α, heapRead (sliceAppendGo (copySliceGo h r).2
        (copySliceGo h r).1 a).2 r = heapRead h r) := by
    intro α h r hr
    have h1 : heapRead (h ++ [heapRead h r]) r = heapRead h r :=
      heapRead_append h (heapRead h r) r hr
    have hne : h.length ≠ r := by omega
    refine ⟨h1, ?_, hne, ?_, ?_⟩
    · rw [copySliceGo, heapAlloc]
      exact heapRead_alloc_new h (heapRead h r)
    · intro i a
      rw [heapWriteIdx, copySliceGo, heapAlloc]
      rw [heapRead_set_ne _ _ _ _ hne, h1]
    · intro a
      simp only [sliceAppendGo, copySliceGo, heapAlloc]
      have hr2 : r < (h ++ [heapRead h r]).length := by
        rw [List.length_append]
        omega
      rw [heapRead_append _ _ _ hr2, h1]
  exact ⟨main Variable hv rv hrv, main constraint hc rc hrc⟩

/-- Witness for the defensive-copy claim at a concrete one-entry heap. -/
theorem C9_defensive_copies_witness :
    (0 < ([[Variable.boolVariable 0]] : List (List Variable)).length) ∧
    (0 < ([[(⟨[], .fin 0, .LessThanOrEqual⟩ : constraint)]] :
      List (List constraint)).length) ∧
    ((model.VarsGo [[Variable.boolVariable 0]] 0).1 ≠ 0) :=
  ⟨by decide, by decide,
    (C9_defensive_copies [[Variable.boolVariable 0]]
      [[(⟨[], .fin 0, .LessThanOrEqual⟩ : constraint)]] 0 0
      (by decide) (by decide)).1.2.2.1⟩

end GoMip
